import Mathlib

/-!
Verification of the CSS-in-JS atomization engine core: the runtime bucket
router (`packages/runtime/src/sheet.tsx`) and the compile-time transform
(`packages/css/src/transform.ts`), shallowly embedded in Lean.

Strings are modelled with Lean `String` (a list of characters); JavaScript
string primitives (`charCodeAt`, `indexOf`, `slice`) are embedded with their
JavaScript semantics, including negative-index handling.
-/

namespace CompiledCss

/-- JavaScript `s.charCodeAt(i) === code(c)` test: `true` exactly when index
`i` is in range and holds character `c` (out of range gives `NaN`, which
compares unequal to every code). -/
def jsCharAt (s : String) (i : Nat) : Option Char :=
  s.data.get? i

/-- JavaScript `s.indexOf(c)` for a single character: index of the first
occurrence, `-1` when absent. -/
def jsIndexOfChar (s : String) (c : Char) : Int :=
  match s.data.findIdx? (· = c) with
  | some i => (i : Int)
  | none => -1

/-- Normalization of one JavaScript `slice` endpoint: a negative endpoint
counts from the end of the string, and endpoints are clamped to
`[0, length]`. -/
def jsSliceNorm (len : Nat) (i : Int) : Nat :=
  (if i < 0 then max ((len : Int) + i) 0 else min i (len : Int)).toNat

/-- JavaScript `s.slice(start, stop)`: both endpoints normalized, and an
empty string results when the normalized start is not below the normalized
stop. -/
def jsSlice (s : String) (start stop : Int) : String :=
  String.mk ((s.data.drop (jsSliceNorm s.data.length start)).take
    (jsSliceNorm s.data.length stop - jsSliceNorm s.data.length start))

/-- `styleBucketOrdering`: ordered style buckets using their short pseudo
names — catch-all, link, visited, focus-within, focus, focus-visible, hover,
active, at-rules. -/
def styleBucketOrdering : List String :=
  ["", "l", "v", "w", "f", "i", "h", "a", "m"]

/-- Position of a bucket in `styleBucketOrdering` (its precedence index). -/
def bucketIndex (b : String) : Nat :=
  styleBucketOrdering.indexOf b

/-- `pseudosMap` as an association list: maps the long pseudo-name suffix to
the short bucket name. -/
def pseudosList : List (String × String) :=
  [("k", "l"), ("ited", "v"), ("us-within", "w"), ("us", "f"),
   ("us-visible", "i"), ("er", "h"), ("ive", "a")]

/-- `pseudosMap[name]`: record lookup, `none` for an absent key. -/
def pseudosMap (name : String) : Option String :=
  (pseudosList.find? (·.1 = name)).map (·.2)

/-- `getStyleBucketName`: classify a sheet string into a bucket from its
leading characters. `@` first character means the at-rule bucket `"m"`; a
`:` at index 10 (immediately after the assumed 10-character class-name token
`"._xxxxxxxx"`) means a pseudo suffix, looked up in `pseudosMap` on
`sheet.slice(14, sheet.indexOf('{'))`, defaulting to the catch-all bucket
`""`; anything else is the catch-all bucket `""`. -/
def getStyleBucketName (sheet : String) : String :=
  if jsCharAt sheet 0 = some '@' then "m"
  else if jsCharAt sheet 10 = some ':' then
    (pseudosMap (jsSlice sheet 14 (jsIndexOfChar sheet '{'))).getD ""
  else ""

/-- A live `<style>` element in the document head: its bucket name and the
rule texts inserted into it (both `insertRule` in production mode and
`appendChild` of a text node in development mode append at the end). -/
structure StyleTag where
  bucket : String
  rules : List String
deriving Repr, DecidableEq

/-- The live style context: the ordered children of `document.head` that are
style buckets. The `styleBucketsInHead` cache contains exactly the buckets
present here, since the cache and the DOM are updated together. -/
structure SheetState where
  head : List StyleTag
deriving Repr, DecidableEq

/-- The bucket names present in the head, in document order. -/
def headBuckets (st : SheetState) : List String :=
  st.head.map (·.bucket)

/-- `styleBucketOrdering.indexOf(bucketName) + 1` with JavaScript `indexOf`
semantics: `-1` for an unknown bucket, so the scan then starts at 0. -/
def nextBucketScanStart (bucketName : String) : Nat :=
  match styleBucketOrdering.findIdx? (· = bucketName) with
  | some i => i + 1
  | none => 0

/-- The loop of `lazyAddStyleBucketToHead`: scan `styleBucketOrdering` from
the position after `bucketName` and return the first bucket that already has
a live tag. -/
def findNextExisting (present : List String) (bucketName : String) : Option String :=
  (styleBucketOrdering.drop (nextBucketScanStart bucketName)).find? (fun t => present.contains t)

/-- `document.head.insertBefore(tag, ref)` with `ref` the live tag of bucket
`t`: insert immediately before the (unique) tag of bucket `t`. -/
def insertBeforeBucket : List StyleTag → StyleTag → String → List StyleTag
  | [], tag, _ => [tag]
  | h :: rest, tag, t =>
      if h.bucket = t then tag :: h :: rest else h :: insertBeforeBucket rest tag t

/-- `document.head.insertBefore(tag, ref)`, where `ref` is `null` when no
higher bucket exists yet (append at the end). -/
def insertTag (head : List StyleTag) (tag : StyleTag) : Option String → List StyleTag
  | none => head ++ [tag]
  | some t => insertBeforeBucket head tag t

/-- `lazyAddStyleBucketToHead`: if the bucket has no live tag yet, create an
empty one and insert it before the next existing bucket in
`styleBucketOrdering` (or append when there is none). -/
def lazyAddStyleBucketToHead (st : SheetState) (bucketName : String) : SheetState :=
  if st.head.any (·.bucket = bucketName) then st
  else
    { head := insertTag st.head ⟨bucketName, []⟩ (findNextExisting (headBuckets st) bucketName) }

/-- Appending the rule text to the live tag of bucket `b` (the tag returned
by `lazyAddStyleBucketToHead`; buckets are unique in the head, so it is the
first tag with that bucket). -/
def appendRuleToBucket : List StyleTag → String → String → List StyleTag
  | [], _, _ => []
  | h :: rest, b, css =>
      if h.bucket = b then { h with rules := h.rules ++ [css] } :: rest
      else h :: appendRuleToBucket rest b css

/-- The function returned by `createStyleSheet`: classify the sheet, lazily
create its bucket tag, then insert the rule text into that tag. There is no
inserted-sheet cache in the body, so every call inserts. -/
def applySheet (st : SheetState) (css : String) : SheetState :=
  let bucketName := getStyleBucketName css
  let st' := lazyAddStyleBucketToHead st bucketName
  { head := appendRuleToBucket st'.head bucketName css }

/-- Fold `applySheet` over a sequence of sheets. -/
def applySheets (st : SheetState) (sheets : List String) : SheetState :=
  sheets.foldl applySheet st

/-- The initial style context: no buckets created yet. -/
def initialState : SheetState := ⟨[]⟩

/-- The rule texts of bucket `b` in the state (of its first tag, which is
unique in every reachable state). -/
def rulesOf (st : SheetState) (b : String) : List String :=
  ((st.head.find? (·.bucket = b)).map (·.rules)).getD []

/-- Insert a bucket name immediately before the first occurrence of `t` in a
bucket-name list (appending when `t` is absent). -/
def insertStrBefore : List String → String → String → List String
  | [], b, _ => [b]
  | h :: rest, b, t => if h = t then b :: h :: rest else h :: insertStrBefore rest b t

/-- Every live bucket is one of the fixed buckets. -/
def ValidBuckets (st : SheetState) : Prop :=
  ∀ b ∈ headBuckets st, b ∈ styleBucketOrdering

/-- The live buckets appear in the head in strictly increasing precedence
order. -/
def Ordered (st : SheetState) : Prop :=
  (headBuckets st).Pairwise (fun a b => bucketIndex a < bucketIndex b)

instance (st : SheetState) : Decidable (ValidBuckets st) :=
  inferInstanceAs (Decidable (∀ b ∈ headBuckets st, b ∈ styleBucketOrdering))

instance (st : SheetState) : Decidable (Ordered st) :=
  inferInstanceAs (Decidable (List.Pairwise _ _))

/-- The live buckets of strictly higher precedence than `b`. -/
def strictlyHigherLive (bs : List String) (b : String) : List String :=
  bs.filter fun t => decide (bucketIndex b < bucketIndex t)

/-- The element of least precedence index (first such, for ties). -/
def minByBucketIndex : List String → Option String
  | [] => none
  | x :: xs =>
      match minByBucketIndex xs with
      | none => some x
      | some y => if bucketIndex x ≤ bucketIndex y then some x else some y

/-- Written from the specification's words, to be compared with the code's
scan: the insertion point of the nearest bucket with strictly higher
precedence that already exists — among the live buckets of strictly higher
precedence, the one of least precedence index. -/
def specNearestHigherExisting (bs : List String) (b : String) : Option String :=
  minByBucketIndex (strictlyHigherLive bs b)

/-- A top-level postcss node as seen by `groupGlobalRules`: a bare
declaration, a rule with a selector and its declaration body, a comment, or
an at-rule (postcss node types `decl`, `rule`, `comment`, `atrule`). -/
inductive CssNode where
  | decl (prop value : String)
  | rule (selector : String) (body : List (String × String))
  | comment (text : String)
  | atrule (nm params : String)
deriving Repr, DecidableEq

/-- Whether a node is a comment. -/
def isComment : CssNode → Bool
  | .comment _ => true
  | _ => false

/-- Result of the `group-global-rules` plugin: the replaced top-level node
list and the class names pushed through the callback. -/
structure GlobalResult where
  nodes : List CssNode
  classNames : List String
deriving Repr, DecidableEq

/-- One step of the `root.each` loop of `groupGlobalRules`: a bare
declaration is pushed onto `orphanDecls`; a rule is cloned with its selector
prefixed by `.{uniqueName} ` and pushed onto `nodes`; a comment is removed;
any other node type is left off `nodes`. -/
def groupScanStep (uniqueName : String)
    (acc : List CssNode × List (String × String)) :
    CssNode → List CssNode × List (String × String)
  | .decl p v => (acc.1, acc.2 ++ [(p, v)])
  | .rule sel bdy =>
      (acc.1 ++ [.rule ("." ++ uniqueName ++ " " ++ sel) bdy], acc.2)
  | .comment _ => acc
  | .atrule _ _ => acc

/-- The `OnceExit` pass of `groupGlobalRules`, parameterized by the content
hash function `hash` of `@compiled/utils` (not under `src/`): the callback
receives `.{hash(input)}` once; the loop scans the top-level nodes; at the
end the orphan declarations, when present, are wrapped into one synthetic
rule with selector `.{hash(input)}` unshifted onto the front of the rules;
the root's nodes are replaced with the result. -/
def groupGlobalRules (hash : String → String) (inputCss : String)
    (root : List CssNode) : GlobalResult :=
  let uniqueName := hash inputCss
  let scanned := root.foldl (groupScanStep uniqueName) ([], [])
  { nodes :=
      if scanned.2.isEmpty then scanned.1
      else .rule ("." ++ uniqueName) scanned.2 :: scanned.1,
    classNames := ["." ++ uniqueName] }

/-- The top-level bare declarations of a node list, in order. -/
def topDecls (root : List CssNode) : List (String × String) :=
  root.filterMap fun n =>
    match n with
    | .decl p v => some (p, v)
    | _ => none

/-- The top-level rules of a node list, in order. -/
def topRules (root : List CssNode) : List CssNode :=
  root.filterMap fun n =>
    match n with
    | .rule sel bdy => some (.rule sel bdy)
    | _ => none

/-- Re-selecting a rule under the hash class. -/
def prefixRule (uniqueName : String) : CssNode → CssNode
  | .rule sel bdy => .rule ("." ++ uniqueName ++ " " ++ sel) bdy
  | n => n

/-- The declaration payloads of a node list in emission order (bare
declarations and rule bodies; comments and at-rules contribute none). -/
def declSequence (ns : List CssNode) : List (String × String) :=
  ns.bind fun n =>
    match n with
    | .decl p v => [(p, v)]
    | .rule _ bdy => bdy
    | _ => []

/-- The options of `transformCss` (`TransformOpts`). -/
structure TransformOpts where
  optimizeCss : Bool := false
  classNameCompressionMap : List (String × String) := []
  increaseSpecificity : Bool := false
  sortAtRules : Bool := false
  sortShorthand : Bool := false
  classHashPrefix : String := ""
deriving Repr, DecidableEq

/-- The value of a successful `transformCss` call. -/
structure TransformResult where
  sheets : List String
  classNames : List String
deriving Repr, DecidableEq

/-- Modelled from the spec: the `ParseError{input, cause}` thrown by
`transformCss` through `createError('css', 'Unhandled exception')` of
`@compiled/utils` (not under `src/`); the thrown message interpolates the
input CSS and the caught exception's message, modelled as the two fields. -/
structure ParseErr where
  input : String
  diagnostic : String
deriving Repr, DecidableEq

/-- Modelled from the spec: `unique` of `@compiled/utils` (not under
`src/`), the deduplication applied to the collected class names; keeps first
occurrences. -/
def unique (l : List String) : List String :=
  l.foldl (fun acc x => if acc.contains x then acc else acc ++ [x]) []

/-- `transformCss`: run the postcss plugin chain over the input, collecting
sheets and class names through the extraction callbacks, and return them
with the class names deduplicated; any exception thrown while processing is
caught and re-thrown as a single error carrying the original input and the
underlying diagnostic. The plugin chain itself (postcss and the plugins of
`packages/css/src/plugins`, which are not part of the cited transform
wrapper) is abstracted as the `pipeline` parameter from the options, the
global-branch flag and the input to either the collected `(sheets,
classNames)` pair or a thrown diagnostic. -/
def transformCss
    (pipeline : TransformOpts → Bool → String →
      Except String (List String × List String))
    (opts : TransformOpts) (isGlobal : Bool) (css : String) :
    Except ParseErr TransformResult :=
  match pipeline opts isGlobal css with
  | .ok (sheets, classNames) =>
      .ok { sheets := sheets, classNames := unique classNames }
  | .error diagnostic => .error { input := css, diagnostic := diagnostic }

/-! ## Theorems -/

example : getStyleBucketName "._a1234567:hover\x7bcolor:red\x7d" = "h" := by decide

example : getStyleBucketName "@media screen\x7b._a1234567\x7bcolor:red\x7d\x7d" = "m" := by decide

example : getStyleBucketName "._a1234567\x7bcolor:red\x7d" = "" := by decide

example : getStyleBucketName "._a1234567:focus-visible\x7bcolor:red\x7d" = "i" := by decide

example :
    headBuckets (applySheets initialState
      ["._a1234567:hover\x7bcolor:red\x7d", "._b1234567\x7bcolor:blue\x7d",
       "@media screen\x7b\x7d", "._c1234567:focus\x7bcolor:green\x7d"]) =
      ["", "f", "h", "m"] := by decide

/-- The bucket ordering is strictly increasing under `bucketIndex`. -/
theorem styleBucketOrdering_pairwise :
    styleBucketOrdering.Pairwise (fun a b => bucketIndex a < bucketIndex b) := by
  decide

/-- `bucketIndex` is injective on members of the ordering. -/
theorem bucketIndex_inj :
    ∀ a ∈ styleBucketOrdering, ∀ b ∈ styleBucketOrdering,
      bucketIndex a = bucketIndex b → a = b := by
  decide

/-- For buckets of the ordering, membership in the scan tail after `b` is
exactly strictly higher precedence index than `b`. -/
theorem mem_scanTail_iff :
    ∀ b ∈ styleBucketOrdering, ∀ x ∈ styleBucketOrdering,
      (x ∈ styleBucketOrdering.drop (nextBucketScanStart b) ↔
        bucketIndex b < bucketIndex x) := by
  decide

/-- For a bucket of the ordering the scan starts right after its index. -/
theorem nextBucketScanStart_eq :
    ∀ b ∈ styleBucketOrdering, nextBucketScanStart b = bucketIndex b + 1 := by
  decide

/-- The ordering has no duplicate buckets. -/
theorem styleBucketOrdering_nodup : styleBucketOrdering.Nodup := by decide

/-- A successful `find?` splits the list at the found element, with the
prefix all failing the predicate. -/
theorem find?_split {α : Type} (p : α → Bool) :
    ∀ (l : List α) (t : α), l.find? p = some t →
      p t = true ∧ ∃ l1 l2, l = l1 ++ t :: l2 ∧ ∀ x ∈ l1, p x = false := by
  intro l
  induction l with
  | nil => intro t h; simp [List.find?] at h
  | cons a l ih =>
      intro t h
      by_cases ha : p a = true
      · rw [List.find?_cons_of_pos _ ha] at h
        cases h
        exact ⟨ha, [], l, rfl, by simp⟩
      · rw [List.find?_cons_of_neg _ (by simpa using ha)] at h
        obtain ⟨hpt, l1, l2, rfl, hl1⟩ := ih t h
        refine ⟨hpt, a :: l1, l2, rfl, ?_⟩
        intro x hx
        rcases List.mem_cons.mp hx with rfl | hx
        · simpa using ha
        · exact hl1 x hx

/-- Conversely, if the list splits at `t` with a failing prefix, `find?`
returns `t`. -/
theorem find?_of_split {α : Type} (p : α → Bool) (t : α) (ht : p t = true) :
    ∀ (l1 l2 : List α), (∀ x ∈ l1, p x = false) →
      (l1 ++ t :: l2).find? p = some t := by
  intro l1
  induction l1 with
  | nil => intro l2 _; simp [List.find?_cons_of_pos _ ht]
  | cons a l1 ih =>
      intro l2 h1
      have ha : p a = false := h1 a (by simp)
      rw [List.cons_append, List.find?_cons_of_neg _ (by simp [ha])]
      exact ih l2 fun x hx => h1 x (List.mem_cons_of_mem a hx)

/-- `insertBeforeBucket` at the level of bucket names. -/
theorem map_insertBeforeBucket (tag : StyleTag) (t : String) :
    ∀ head : List StyleTag,
      (insertBeforeBucket head tag t).map (·.bucket) =
        insertStrBefore (head.map (·.bucket)) tag.bucket t := by
  intro head
  induction head with
  | nil => rfl
  | cons h rest ih =>
      by_cases hb : h.bucket = t
      · simp [insertBeforeBucket, insertStrBefore, hb]
      · simp [insertBeforeBucket, insertStrBefore, hb, ih]

/-- `appendRuleToBucket` does not change the bucket names of the head. -/
theorem map_appendRuleToBucket (b css : String) :
    ∀ l : List StyleTag,
      (appendRuleToBucket l b css).map (·.bucket) = l.map (·.bucket) := by
  intro l
  induction l with
  | nil => rfl
  | cons h rest ih =>
      by_cases hb : h.bucket = b
      · simp [appendRuleToBucket, hb]
      · simp [appendRuleToBucket, hb, ih]

/-- Bucket names of the head after a lazy insertion of an absent bucket. -/
theorem headBuckets_lazyAdd_absent (st : SheetState) (b : String)
    (habs : b ∉ headBuckets st) :
    headBuckets (lazyAddStyleBucketToHead st b) =
      match findNextExisting (headBuckets st) b with
      | none => headBuckets st ++ [b]
      | some t => insertStrBefore (headBuckets st) b t := by
  have hany : st.head.any (·.bucket = b) = false := by
    rw [List.any_eq_false]
    intro x hx
    simp only [decide_eq_true_eq]
    intro hxb
    exact habs (hxb ▸ List.mem_map_of_mem (·.bucket) hx)
  unfold lazyAddStyleBucketToHead
  rw [hany]
  simp only [Bool.false_eq_true, if_false]
  cases hfind : findNextExisting (headBuckets st) b with
  | none => simp [headBuckets, insertTag, hfind]
  | some t =>
      simp only [headBuckets, insertTag, hfind]
      exact map_insertBeforeBucket ⟨b, []⟩ t st.head

/-- Bucket names of the head are unchanged by a lazy insertion of a bucket
that is already present. -/
theorem lazyAdd_present (st : SheetState) (b : String)
    (hpres : b ∈ headBuckets st) :
    lazyAddStyleBucketToHead st b = st := by
  have hany : st.head.any (·.bucket = b) = true := by
    rw [List.any_eq_true]
    obtain ⟨tag, htag, rfl⟩ := List.mem_map.mp hpres
    exact ⟨tag, htag, by simp⟩
  unfold lazyAddStyleBucketToHead
  rw [hany]
  simp

/-- A successful bucket scan returns a live bucket of strictly higher
precedence index, minimal among the live strictly-higher ones. -/
theorem findNextExisting_some (bs : List String) (b t : String)
    (hb : b ∈ styleBucketOrdering) (hv : ∀ x ∈ bs, x ∈ styleBucketOrdering)
    (h : findNextExisting bs b = some t) :
    t ∈ bs ∧ t ∈ styleBucketOrdering ∧ bucketIndex b < bucketIndex t ∧
      ∀ x ∈ bs, bucketIndex b < bucketIndex x → bucketIndex t ≤ bucketIndex x := by
  unfold findNextExisting at h
  obtain ⟨hpt, l1, l2, hsplit, hl1⟩ := find?_split _ _ _ h
  have htbs : t ∈ bs := by simpa using hpt
  have htdrop : t ∈ styleBucketOrdering.drop (nextBucketScanStart b) := by
    rw [hsplit]; exact List.mem_append_right _ (List.mem_cons_self t l2)
  have htSBO : t ∈ styleBucketOrdering := List.drop_subset _ _ htdrop
  have htlt : bucketIndex b < bucketIndex t :=
    (mem_scanTail_iff b hb t htSBO).mp htdrop
  refine ⟨htbs, htSBO, htlt, ?_⟩
  intro x hx hbx
  by_contra hxt
  push_neg at hxt
  have hxSBO : x ∈ styleBucketOrdering := hv x hx
  have hxdrop : x ∈ styleBucketOrdering.drop (nextBucketScanStart b) :=
    (mem_scanTail_iff b hb x hxSBO).mpr hbx
  have hpair : (styleBucketOrdering.drop (nextBucketScanStart b)).Pairwise
      (fun a b => bucketIndex a < bucketIndex b) :=
    List.Pairwise.sublist (List.drop_sublist _ _) styleBucketOrdering_pairwise
  rw [hsplit] at hxdrop hpair
  rw [List.pairwise_append] at hpair
  rcases List.mem_append.mp hxdrop with hx1 | hx2
  · have hxc : bs.contains x = false := hl1 x hx1
    exact absurd hx (by simpa using hxc)
  · rcases List.mem_cons.mp hx2 with rfl | hx2
    · exact absurd rfl (Nat.ne_of_lt hxt)
    · exact absurd (List.rel_of_pairwise_cons hpair.2.1 hx2) (Nat.not_lt.mpr hxt.le)

/-- A failed bucket scan means every live bucket has strictly lower
precedence index than the new bucket. -/
theorem findNextExisting_none (bs : List String) (b : String)
    (hb : b ∈ styleBucketOrdering) (hv : ∀ x ∈ bs, x ∈ styleBucketOrdering)
    (hnb : b ∉ bs) (h : findNextExisting bs b = none) :
    ∀ x ∈ bs, bucketIndex x < bucketIndex b := by
  unfold findNextExisting at h
  rw [List.find?_eq_none] at h
  intro x hx
  have hxSBO : x ∈ styleBucketOrdering := hv x hx
  rcases Nat.lt_trichotomy (bucketIndex x) (bucketIndex b) with hlt | heq | hgt
  · exact hlt
  · exact absurd (bucketIndex_inj x hxSBO b hb heq) (fun hxb => hnb (hxb ▸ hx))
  · have hxdrop : x ∈ styleBucketOrdering.drop (nextBucketScanStart b) :=
      (mem_scanTail_iff b hb x hxSBO).mpr hgt
    exact absurd (by simpa using hx) (h x hxdrop)

/-- Inserting before the first occurrence of `t` splits around it. -/
theorem insertStrBefore_split (b t : String) :
    ∀ (s1 s2 : List String), t ∉ s1 →
      insertStrBefore (s1 ++ t :: s2) b t = s1 ++ b :: t :: s2 := by
  intro s1
  induction s1 with
  | nil => intro s2 _; simp [insertStrBefore]
  | cons a s1 ih =>
      intro s2 ha
      have hat : a ≠ t := fun h => ha (h ▸ List.mem_cons_self a s1)
      simp only [List.cons_append, insertStrBefore, if_neg hat]
      exact congrArg (List.cons a) (ih s2 fun h => ha (List.mem_cons_of_mem a h))

/-- Membership in the result of `insertStrBefore`. -/
theorem mem_insertStrBefore (x b t : String) :
    ∀ l : List String, x ∈ insertStrBefore l b t → x ∈ l ∨ x = b := by
  intro l
  induction l with
  | nil => intro h; simp [insertStrBefore] at h; exact Or.inr h
  | cons a l ih =>
      intro h
      by_cases hat : a = t
      · simp only [insertStrBefore, if_pos hat] at h
        rcases List.mem_cons.mp h with rfl | h
        · exact Or.inr rfl
        · exact Or.inl h
      · simp only [insertStrBefore, if_neg hat] at h
        rcases List.mem_cons.mp h with rfl | h
        · exact Or.inl (List.mem_cons_self x l)
        · rcases ih h with h | h
          · exact Or.inl (List.mem_cons_of_mem a h)
          · exact Or.inr h

/-- The inserted bucket is present after `insertStrBefore`. -/
theorem self_mem_insertStrBefore (b t : String) :
    ∀ l : List String, b ∈ insertStrBefore l b t := by
  intro l
  induction l with
  | nil => simp [insertStrBefore]
  | cons a l ih =>
      by_cases hat : a = t
      · simp [insertStrBefore, hat]
      · simp only [insertStrBefore, if_neg hat]
        exact List.mem_cons_of_mem a ih

/-- Every value of `pseudosMap` is a bucket of the ordering. -/
theorem pseudosMap_mem_styleBucketOrdering (name v : String)
    (h : pseudosMap name = some v) : v ∈ styleBucketOrdering := by
  unfold pseudosMap at h
  cases hf : pseudosList.find? (·.1 = name) with
  | none => rw [hf] at h; simp at h
  | some pr =>
      rw [hf] at h
      simp only [Option.map_some', Option.some_inj] at h
      have hmem : pr ∈ pseudosList := List.mem_of_find?_eq_some hf
      have : ∀ x ∈ pseudosList, x.2 ∈ styleBucketOrdering := by decide
      exact h ▸ this pr hmem

/-- The classifier always returns one of the fixed buckets. -/
theorem getStyleBucketName_mem (css : String) :
    getStyleBucketName css ∈ styleBucketOrdering := by
  unfold getStyleBucketName
  split
  · decide
  · split
    · cases hmp : pseudosMap (jsSlice css 14 (jsIndexOfChar css '{')) with
      | none => simp only [hmp, Option.getD_none]; decide
      | some v =>
          simp only [hmp, Option.getD_some]
          exact pseudosMap_mem_styleBucketOrdering _ v hmp
    · decide

/-- Lazily adding a valid absent bucket keeps the head strictly ordered and
valid. -/
theorem lazyAdd_preserves_inv (st : SheetState) (b : String)
    (hb : b ∈ styleBucketOrdering) (hv : ValidBuckets st) (ho : Ordered st) :
    ValidBuckets (lazyAddStyleBucketToHead st b) ∧
      Ordered (lazyAddStyleBucketToHead st b) := by
  by_cases hpres : b ∈ headBuckets st
  · rw [lazyAdd_present st b hpres]; exact ⟨hv, ho⟩
  · have hchar := headBuckets_lazyAdd_absent st b hpres
    cases hfind : findNextExisting (headBuckets st) b with
    | none =>
        rw [hfind] at hchar
        have hlow := findNextExisting_none (headBuckets st) b hb hv hpres hfind
        constructor
        · intro x hx
          rw [hchar] at hx
          rcases List.mem_append.mp hx with hx | hx
          · exact hv x hx
          · rw [List.mem_singleton.mp hx]; exact hb
        · unfold Ordered
          rw [hchar, List.pairwise_append]
          refine ⟨ho, List.pairwise_singleton _ _, ?_⟩
          intro x hx y hy
          rw [List.mem_singleton.mp hy]
          exact hlow x hx
    | some t =>
        rw [hfind] at hchar
        have hchar2 : headBuckets (lazyAddStyleBucketToHead st b) =
            insertStrBefore (headBuckets st) b t := hchar
        obtain ⟨htbs, htSBO, htlt, hmin⟩ :=
          findNextExisting_some (headBuckets st) b t hb hv hfind
        have hnodup : (headBuckets st).Nodup :=
          ho.imp fun hab => fun he => absurd (he ▸ hab) (Nat.lt_irrefl _)
        obtain ⟨s1, s2, hsplit⟩ := List.append_of_mem htbs
        have hts1 : t ∉ s1 := by
          intro hts1
          rw [hsplit] at hnodup
          rw [List.nodup_append] at hnodup
          exact hnodup.2.2 hts1 (List.mem_cons_self t s2)
        have hins : insertStrBefore (headBuckets st) b t = s1 ++ b :: t :: s2 := by
          rw [hsplit]; exact insertStrBefore_split b t s1 s2 hts1
        have hpairs := ho
        unfold Ordered at hpairs
        rw [hsplit, List.pairwise_append] at hpairs
        obtain ⟨hp1, hp2, hcross⟩ := hpairs
        have hs1lt : ∀ x ∈ s1, bucketIndex x < bucketIndex b := by
          intro x hx
          have hxbs : x ∈ headBuckets st := by
            rw [hsplit]; exact List.mem_append_left _ hx
          rcases Nat.lt_trichotomy (bucketIndex x) (bucketIndex b) with hlt | heq | hgt
          · exact hlt
          · exact absurd (bucketIndex_inj x (hv x hxbs) b hb heq)
              (fun hxb => hpres (hxb ▸ hxbs))
          · have h1 : bucketIndex t ≤ bucketIndex x := hmin x hxbs hgt
            have h2 : bucketIndex x < bucketIndex t :=
              hcross x hx t (List.mem_cons_self t s2)
            exact absurd h1 (Nat.not_le.mpr h2)
        constructor
        · intro x hx
          rw [hchar2] at hx
          rcases mem_insertStrBefore x b t (headBuckets st) hx with hx | rfl
          · exact hv x hx
          · exact hb
        · unfold Ordered
          rw [hchar2, hins, List.pairwise_append]
          refine ⟨hp1, ?_, ?_⟩
          · rw [List.pairwise_cons]
            refine ⟨?_, hp2⟩
            intro y hy
            rcases List.mem_cons.mp hy with rfl | hy
            · exact htlt
            · exact Nat.lt_trans htlt (List.rel_of_pairwise_cons hp2 hy)
          · intro x hx y hy
            rcases List.mem_cons.mp hy with rfl | hy
            · exact hs1lt x hx
            · exact hcross x hx y hy

/-- One `applySheet` call preserves the head invariants. -/
theorem applySheet_preserves_inv (st : SheetState) (css : String)
    (hv : ValidBuckets st) (ho : Ordered st) :
    ValidBuckets (applySheet st css) ∧ Ordered (applySheet st css) := by
  have hmemb := getStyleBucketName_mem css
  obtain ⟨hv2, ho2⟩ := lazyAdd_preserves_inv st (getStyleBucketName css) hmemb hv ho
  have hsame : headBuckets (applySheet st css) =
      headBuckets (lazyAddStyleBucketToHead st (getStyleBucketName css)) := by
    unfold applySheet headBuckets
    exact map_appendRuleToBucket _ _ _
  constructor
  · intro x hx; exact hv2 x (hsame ▸ hx)
  · unfold Ordered; rw [hsame]; exact ho2

/-- Any sequence of `applySheet` calls preserves the head invariants. -/
theorem applySheets_preserves_inv (sheets : List String) :
    ∀ st : SheetState, ValidBuckets st → Ordered st →
      ValidBuckets (applySheets st sheets) ∧ Ordered (applySheets st sheets) := by
  induction sheets with
  | nil => intro st hv ho; exact ⟨hv, ho⟩
  | cons s rest ih =>
      intro st hv ho
      obtain ⟨hv1, ho1⟩ := applySheet_preserves_inv st s hv ho
      exact ih (applySheet st s) hv1 ho1

/-- C1: after any finite sequence of `applySheet` calls starting from the
empty style context, the live bucket insertion points appear in the document
head in strictly increasing bucket-precedence order — so any two live
buckets are ordered by the fixed precedence (catch-all < link < visited <
focus-within < focus < focus-visible < hover < active < at-rule), however
many times and in whatever order the sheets were applied. -/
theorem bucket_order_invariant (sheets : List String) :
    (headBuckets (applySheets initialState sheets)).Pairwise
      (fun a b => bucketIndex a < bucketIndex b) :=
  (applySheets_preserves_inv sheets initialState
    (by intro b hb; simp [headBuckets, initialState] at hb)
    (by simp [Ordered, headBuckets, initialState])).2

/-- After a lazy add, the bucket has a live tag. -/
theorem mem_lazyAdd (st : SheetState) (b : String) :
    b ∈ headBuckets (lazyAddStyleBucketToHead st b) := by
  by_cases hpres : b ∈ headBuckets st
  · rw [lazyAdd_present st b hpres]; exact hpres
  · have hchar := headBuckets_lazyAdd_absent st b hpres
    cases hfind : findNextExisting (headBuckets st) b with
    | none =>
        rw [hfind] at hchar
        have hchar2 : headBuckets (lazyAddStyleBucketToHead st b) =
            headBuckets st ++ [b] := hchar
        rw [hchar2]
        exact List.mem_append_right _ (List.mem_singleton_self b)
    | some t =>
        rw [hfind] at hchar
        have hchar2 : headBuckets (lazyAddStyleBucketToHead st b) =
            insertStrBefore (headBuckets st) b t := hchar
        rw [hchar2]
        exact self_mem_insertStrBefore b t (headBuckets st)

/-- Appending a rule to a live bucket makes the rule text a member of that
bucket's rule list. -/
theorem mem_rules_appendRuleToBucket (b css : String) :
    ∀ l : List StyleTag, b ∈ l.map (·.bucket) →
      css ∈ ((((appendRuleToBucket l b css).find? (·.bucket = b)).map
        (·.rules)).getD []) := by
  intro l
  induction l with
  | nil => intro h; simp at h
  | cons h rest ih =>
      intro hmem
      by_cases hb : h.bucket = b
      · simp only [appendRuleToBucket, if_pos hb]
        rw [List.find?_cons_of_pos _ (by simpa using hb)]
        simp
      · simp only [appendRuleToBucket, if_neg hb]
        rw [List.find?_cons_of_neg _ (by simpa using hb)]
        apply ih
        rcases List.mem_cons.mp (List.mem_map.mp hmem |>.choose_spec.2 ▸ hmem) with _ | _
        · rcases List.mem_map.mp hmem with ⟨tag, htag, rfl⟩
          rcases List.mem_cons.mp htag with rfl | htag
          · exact absurd rfl hb
          · exact List.mem_map_of_mem _ htag
        · rcases List.mem_map.mp hmem with ⟨tag, htag, rfl⟩
          rcases List.mem_cons.mp htag with rfl | htag
          · exact absurd rfl hb
          · exact List.mem_map_of_mem _ htag

/-- Within the model, where the host insertion call is a total append:
every sheet string, including an unclassifiable one, is assigned one of the
fixed buckets (the catch-all bucket by default, since the classifier is
total) and its raw text is handed to that bucket's live insertion point.
This scopes the classification side only; whether the host accepts the
handed-off text is the host's own behavior (see the C7 evaluation below). -/
theorem applySheet_assigns_bucket (st : SheetState) (css : String) :
    getStyleBucketName css ∈ styleBucketOrdering ∧
      css ∈ rulesOf (applySheet st css) (getStyleBucketName css) := by
  refine ⟨getStyleBucketName_mem css, ?_⟩
  unfold applySheet rulesOf
  exact mem_rules_appendRuleToBucket (getStyleBucketName css) css _
    (mem_lazyAdd st (getStyleBucketName css))

/-- C7 evaluation at the failing input: the unclassifiable sheet `"junk"`
raises no error in the classification step — it is assigned the catch-all
bucket, its insertion point is created, and its raw text is handed to the
bucket's insertion call. In production mode that call is the host
`CSSStyleSheet.insertRule`, which throws a `SyntaxError` on text that is not
a parsable CSS rule, so the claim's never-raises guarantee stops at this
hand-off: the classifier has no error path, the unguarded production-mode
insertion does. -/
theorem unclassifiable_sheet_insertion :
    getStyleBucketName "junk" = "" ∧
      rulesOf (applySheet initialState "junk") "" = ["junk"] := by
  decide

/-- C2 is violated by the code: `createStyleSheet`'s returned function keeps
no record of already-inserted sheets (its doc comment describes an
`inserted` cache parameter that the function does not have), so re-applying
the same sheet appends its rule text a second time. -/
theorem reapply_sheet_duplicates_rule :
    rulesOf (applySheet (applySheet initialState "._a1234567\x7bcolor:red\x7d")
        "._a1234567\x7bcolor:red\x7d") "" =
      ["._a1234567\x7bcolor:red\x7d", "._a1234567\x7bcolor:red\x7d"] := by decide

/-- A found minimum is a member. -/
theorem minByBucketIndex_mem :
    ∀ (l : List String) (y : String), minByBucketIndex l = some y → y ∈ l := by
  intro l
  induction l with
  | nil => intro y h; simp [minByBucketIndex] at h
  | cons x xs ih =>
      intro y h
      unfold minByBucketIndex at h
      cases hm : minByBucketIndex xs with
      | none => rw [hm] at h; cases h; exact List.mem_cons_self x xs
      | some z =>
          rw [hm] at h
          have h2 : (if bucketIndex x ≤ bucketIndex z then some x else some z) =
              some y := h
          by_cases hle : bucketIndex x ≤ bucketIndex z
          · rw [if_pos hle] at h2; cases h2; exact List.mem_cons_self x xs
          · rw [if_neg hle] at h2; cases h2
            exact List.mem_cons_of_mem x (ih y hm)

/-- On a strictly increasing list, the minimum is the head. -/
theorem minByBucketIndex_sorted (l : List String)
    (hs : l.Pairwise (fun a b => bucketIndex a < bucketIndex b)) :
    minByBucketIndex l = l.head? := by
  induction l with
  | nil => rfl
  | cons x xs ih =>
      unfold minByBucketIndex
      cases hm : minByBucketIndex xs with
      | none => rfl
      | some z =>
          have hz : z ∈ xs := minByBucketIndex_mem xs z hm
          have hlt : bucketIndex x < bucketIndex z :=
            List.rel_of_pairwise_cons hs hz
          show (if bucketIndex x ≤ bucketIndex z then some x else some z) =
            (x :: xs).head?
          rw [if_pos hlt.le]
          rfl

/-- The code's ordering scan finds exactly the specification's nearest
strictly-higher-precedence live bucket. -/
theorem findNextExisting_eq_spec (bs : List String) (b : String)
    (hb : b ∈ styleBucketOrdering) (hv : ∀ x ∈ bs, x ∈ styleBucketOrdering)
    (ho : bs.Pairwise (fun a b => bucketIndex a < bucketIndex b)) :
    findNextExisting bs b = specNearestHigherExisting bs b := by
  have hmemF : ∀ x, x ∈ strictlyHigherLive bs b ↔
      x ∈ bs ∧ bucketIndex b < bucketIndex x := by
    intro x
    unfold strictlyHigherLive
    rw [List.mem_filter]
    simp
  cases hF : strictlyHigherLive bs b with
  | nil =>
      have hnone : ∀ x ∈ bs, ¬ bucketIndex b < bucketIndex x := by
        intro x hx hlt
        have : x ∈ strictlyHigherLive bs b := (hmemF x).mpr ⟨hx, hlt⟩
        rw [hF] at this
        simp at this
      unfold specNearestHigherExisting
      rw [hF]
      show (styleBucketOrdering.drop (nextBucketScanStart b)).find?
        (fun t => bs.contains t) = none
      rw [List.find?_eq_none]
      intro t htdrop htc
      have htbs : t ∈ bs := by simpa using htc
      have htSBO : t ∈ styleBucketOrdering := List.drop_subset _ _ htdrop
      exact hnone t htbs ((mem_scanTail_iff b hb t htSBO).mp htdrop)
  | cons f F' =>
      have hFs : (strictlyHigherLive bs b).Pairwise
          (fun a b => bucketIndex a < bucketIndex b) := List.Pairwise.filter _ ho
      have hspec : specNearestHigherExisting bs b = some f := by
        unfold specNearestHigherExisting
        rw [minByBucketIndex_sorted _ hFs, hF]
        rfl
      rw [hspec]
      have hfF : f ∈ strictlyHigherLive bs b := by rw [hF]; exact List.mem_cons_self f F'
      obtain ⟨hfbs, hflt⟩ := (hmemF f).mp hfF
      have hfSBO : f ∈ styleBucketOrdering := hv f hfbs
      have hfdrop : f ∈ styleBucketOrdering.drop (nextBucketScanStart b) :=
        (mem_scanTail_iff b hb f hfSBO).mpr hflt
      obtain ⟨l1, l2, hsplit⟩ := List.append_of_mem hfdrop
      have hdnodup : (styleBucketOrdering.drop (nextBucketScanStart b)).Nodup :=
        List.Nodup.sublist (List.drop_sublist _ _) styleBucketOrdering_nodup
      have hfl1 : f ∉ l1 := by
        intro hfl1
        rw [hsplit, List.nodup_append] at hdnodup
        exact hdnodup.2.2 hfl1 (List.mem_cons_self f l2)
      have hdpair : (styleBucketOrdering.drop (nextBucketScanStart b)).Pairwise
          (fun a b => bucketIndex a < bucketIndex b) :=
        List.Pairwise.sublist (List.drop_sublist _ _) styleBucketOrdering_pairwise
      unfold findNextExisting
      rw [hsplit]
      apply find?_of_split
      · simpa using hfbs
      · intro x hx
        rw [hsplit, List.pairwise_append] at hdpair
        have hxf : bucketIndex x < bucketIndex f :=
          hdpair.2.2 x hx f (List.mem_cons_self f l2)
        by_contra hxc
        simp only [Bool.not_eq_false] at hxc
        have hxbs : x ∈ bs := by simpa using hxc
        have hxdrop : x ∈ styleBucketOrdering.drop (nextBucketScanStart b) := by
          rw [hsplit]; exact List.mem_append_left _ hx
        have hxSBO : x ∈ styleBucketOrdering := hv x hxbs
        have hxhigh : bucketIndex b < bucketIndex x :=
          (mem_scanTail_iff b hb x hxSBO).mp hxdrop
        have hxF : x ∈ strictlyHigherLive bs b := (hmemF x).mpr ⟨hxbs, hxhigh⟩
        rw [hF] at hxF
        have hFs2 : (f :: F').Pairwise (fun a b => bucketIndex a < bucketIndex b) :=
          hF ▸ hFs
        rcases List.mem_cons.mp hxF with rfl | hxF'
        · exact Nat.lt_irrefl _ hxf
        · exact Nat.lt_irrefl _
            (Nat.lt_trans hxf (List.rel_of_pairwise_cons hFs2 hxF'))

/-- Inserting a bucket adds exactly one occurrence of it. -/
theorem count_insertStrBefore (b t : String) :
    ∀ l : List String, (insertStrBefore l b t).count b = l.count b + 1 := by
  intro l
  induction l with
  | nil => simp [insertStrBefore]
  | cons a l ih =>
      by_cases hat : a = t
      · simp [insertStrBefore, if_pos hat, List.count_cons]
      · simp only [insertStrBefore, if_neg hat, List.count_cons, ih]
        omega

/-- C6: when `applySheet` targets a bucket with no live insertion point yet,
it creates exactly one new insertion point for that bucket and places it in
the head immediately before the insertion point of the nearest
strictly-higher-precedence bucket that already exists; when no
higher-precedence bucket exists yet, the new insertion point is appended at
the end. -/
theorem new_bucket_insertion_point (st : SheetState) (css : String)
    (hv : ValidBuckets st) (ho : Ordered st)
    (habs : getStyleBucketName css ∉ headBuckets st) :
    (headBuckets (applySheet st css)).count (getStyleBucketName css) = 1 ∧
      headBuckets (applySheet st css) =
        match specNearestHigherExisting (headBuckets st) (getStyleBucketName css) with
        | some t => insertStrBefore (headBuckets st) (getStyleBucketName css) t
        | none => headBuckets st ++ [getStyleBucketName css] := by
  have hb := getStyleBucketName_mem css
  have hsame : headBuckets (applySheet st css) =
      headBuckets (lazyAddStyleBucketToHead st (getStyleBucketName css)) := by
    unfold applySheet headBuckets
    exact map_appendRuleToBucket _ _ _
  have hchar := headBuckets_lazyAdd_absent st (getStyleBucketName css) habs
  have hspec := findNextExisting_eq_spec (headBuckets st) (getStyleBucketName css) hb hv ho
  rw [hspec] at hchar
  have hcount0 : (headBuckets st).count (getStyleBucketName css) = 0 :=
    List.count_eq_zero.mpr habs
  cases hn : specNearestHigherExisting (headBuckets st) (getStyleBucketName css) with
  | none =>
      rw [hn] at hchar
      have hchar2 : headBuckets (lazyAddStyleBucketToHead st (getStyleBucketName css)) =
          headBuckets st ++ [getStyleBucketName css] := hchar
      constructor
      · rw [hsame, hchar2, List.count_append, hcount0]
        simp
      · exact hsame.trans hchar2
  | some t =>
      rw [hn] at hchar
      have hchar2 : headBuckets (lazyAddStyleBucketToHead st (getStyleBucketName css)) =
          insertStrBefore (headBuckets st) (getStyleBucketName css) t := hchar
      constructor
      · rw [hsame, hchar2, count_insertStrBefore, hcount0]
      · exact hsame.trans hchar2

/-- Witness for C6 at a concrete state: with the catch-all and at-rule
buckets live, a first hover sheet is inserted between them. -/
theorem new_bucket_insertion_point_witness :
    (headBuckets (applySheet
        (applySheets initialState ["._a1234567\x7bcolor:red\x7d", "@media x\x7b\x7d"])
        "._b1234567:hover\x7bcolor:blue\x7d")).count
      (getStyleBucketName "._b1234567:hover\x7bcolor:blue\x7d") = 1 ∧
      headBuckets (applySheet
          (applySheets initialState ["._a1234567\x7bcolor:red\x7d", "@media x\x7b\x7d"])
          "._b1234567:hover\x7bcolor:blue\x7d") =
        match specNearestHigherExisting
            (headBuckets (applySheets initialState
              ["._a1234567\x7bcolor:red\x7d", "@media x\x7b\x7d"]))
            (getStyleBucketName "._b1234567:hover\x7bcolor:blue\x7d") with
        | some t =>
            insertStrBefore
              (headBuckets (applySheets initialState
                ["._a1234567\x7bcolor:red\x7d", "@media x\x7b\x7d"]))
              (getStyleBucketName "._b1234567:hover\x7bcolor:blue\x7d") t
        | none =>
            headBuckets (applySheets initialState
              ["._a1234567\x7bcolor:red\x7d", "@media x\x7b\x7d"]) ++
              [getStyleBucketName "._b1234567:hover\x7bcolor:blue\x7d"] :=
  new_bucket_insertion_point
    (applySheets initialState ["._a1234567\x7bcolor:red\x7d", "@media x\x7b\x7d"])
    "._b1234567:hover\x7bcolor:blue\x7d" (by decide) (by decide) (by decide)

/-- `findIdx?` skips a prefix on which the predicate fails. -/
theorem findIdx?_append_none {α : Type} (q : α → Bool) (l2 : List α) :
    ∀ l1 : List α, (∀ x ∈ l1, q x = false) →
      (l1 ++ l2).findIdx? q = (l2.findIdx? q).map (· + l1.length) := by
  intro l1
  induction l1 with
  | nil =>
      intro _
      cases hfi : l2.findIdx? q <;> simp [hfi]
  | cons a l1 ih =>
      intro hnone
      have ha : q a = false := hnone a (List.mem_cons_self a l1)
      rw [List.cons_append, List.findIdx?_cons, if_neg (by simp [ha]),
        List.findIdx?_succ, ih fun x hx => hnone x (List.mem_cons_of_mem a hx)]
      cases hfi : l2.findIdx? q <;> simp [hfi, Nat.add_assoc]

/-- An at-rule sheet (leading `@`) always lands in the at-rule bucket. -/
theorem getStyleBucketName_atRule (rest : String) :
    getStyleBucketName ("@" ++ rest) = "m" := by
  have h0 : jsCharAt ("@" ++ rest) 0 = some '@' := by
    unfold jsCharAt
    rw [String.data_append, show ("@" : String).data = ['@'] from rfl]
    rfl
  unfold getStyleBucketName
  rw [h0, if_pos rfl]

/-- A sheet with a 9-character class name and no pseudo suffix (so index 10
holds the opening brace, not `:`) lands in the catch-all bucket. -/
theorem getStyleBucketName_noPseudo (h body : String) (hh : h.data.length = 8) :
    getStyleBucketName ("._" ++ h ++ "\x7b" ++ body) = "" := by
  have hdata : ("._" ++ h ++ "\x7b" ++ body).data =
      '.' :: '_' :: (h.data ++ '{' :: body.data) := by
    have e1 : ("._" : String).data = ['.', '_'] := rfl
    have e3 : ("\x7b" : String).data = ['{'] := rfl
    simp [String.data_append, e1, e3]
  have h0 : jsCharAt ("._" ++ h ++ "\x7b" ++ body) 0 = some '.' := by
    unfold jsCharAt; rw [hdata]; rfl
  have h10 : jsCharAt ("._" ++ h ++ "\x7b" ++ body) 10 = some '{' := by
    unfold jsCharAt
    rw [hdata]
    show (h.data ++ '{' :: body.data).get? 8 = some '{'
    rw [List.get?_append_right (by omega)]
    simp [hh]
  unfold getStyleBucketName
  rw [h0, if_neg (by decide), h10, if_neg (by decide)]

/-- The pseudo branch in general: with a 9-character class name and a
brace-free pseudo name after the `:` marker, the classifier looks up the
pseudo-name text starting three characters in (the `slice(14, indexOf('{'))`
of the sheet), defaulting to the catch-all bucket. -/
theorem getStyleBucketName_pseudo (h p body : String)
    (hh : h.data.length = 8) (hhb : '{' ∉ h.data) (hpb : '{' ∉ p.data) :
    getStyleBucketName ("._" ++ h ++ ":" ++ p ++ "\x7b" ++ body) =
      (pseudosMap (String.mk (p.data.drop 3))).getD "" := by
  have hdata : ("._" ++ h ++ ":" ++ p ++ "\x7b" ++ body).data =
      '.' :: '_' :: (h.data ++ ':' :: (p.data ++ '{' :: body.data)) := by
    have e1 : ("._" : String).data = ['.', '_'] := rfl
    have e2 : (":" : String).data = [':'] := rfl
    have e3 : ("\x7b" : String).data = ['{'] := rfl
    simp [String.data_append, e1, e2, e3]
  have h0 : jsCharAt ("._" ++ h ++ ":" ++ p ++ "\x7b" ++ body) 0 = some '.' := by
    unfold jsCharAt; rw [hdata]; rfl
  have h10 : jsCharAt ("._" ++ h ++ ":" ++ p ++ "\x7b" ++ body) 10 = some ':' := by
    unfold jsCharAt
    rw [hdata]
    show (h.data ++ ':' :: (p.data ++ '{' :: body.data)).get? 8 = some ':'
    rw [List.get?_append_right (by omega)]
    simp [hh]
  have hidx : jsIndexOfChar ("._" ++ h ++ ":" ++ p ++ "\x7b" ++ body) '{' =
      ((11 + p.data.length : Nat) : Int) := by
    unfold jsIndexOfChar
    rw [hdata]
    have hsplit : '.' :: '_' :: (h.data ++ ':' :: (p.data ++ '{' :: body.data)) =
        ('.' :: '_' :: h.data ++ ':' :: p.data) ++ '{' :: body.data := by
      simp
    rw [hsplit, findIdx?_append_none _ _ _ ?hnone]
    case hnone =>
      intro x hx
      simp only [List.cons_append, List.mem_cons, List.mem_append] at hx
      rcases hx with rfl | rfl | hx | rfl | hx
      · decide
      · decide
      · simp only [decide_eq_false_iff_not]
        exact fun hxc => hhb (hxc ▸ hx)
      · decide
      · simp only [decide_eq_false_iff_not]
        exact fun hxc => hpb (hxc ▸ hx)
    have hfc : ('{' :: body.data).findIdx? (· = '{') = some 0 := by
      rw [List.findIdx?_cons]
      simp
    rw [hfc]
    show ((0 + ('.' :: '_' :: h.data ++ ':' :: p.data).length : Nat) : Int) = _
    simp [hh]
    omega
  have hslice : jsSlice ("._" ++ h ++ ":" ++ p ++ "\x7b" ++ body) 14
      ((11 + p.data.length : Nat) : Int) = String.mk (p.data.drop 3) := by
    unfold jsSlice
    rw [hdata]
    have hlen : ('.' :: '_' :: (h.data ++ ':' :: (p.data ++ '{' :: body.data))).length =
        12 + p.data.length + body.data.length := by
      simp only [List.length_cons, List.length_append]
      omega
    rw [hlen]
    have ha : jsSliceNorm (12 + p.data.length + body.data.length) 14 =
        min 14 (12 + p.data.length + body.data.length) := by
      unfold jsSliceNorm
      rw [if_neg (by norm_num)]
      omega
    have hb : jsSliceNorm (12 + p.data.length + body.data.length)
        ((11 + p.data.length : Nat) : Int) = 11 + p.data.length := by
      unfold jsSliceNorm
      rw [if_neg (by omega)]
      omega
    rw [ha, hb]
    rcases Nat.lt_or_ge p.data.length 3 with h3 | h3
    · have htake : 11 + p.data.length - min 14 (12 + p.data.length + body.data.length) = 0 := by
        omega
      rw [htake, List.take_zero, List.drop_eq_nil_of_le (by omega)]
    · have hmin : min 14 (12 + p.data.length + body.data.length) = 14 := by omega
      rw [hmin]
      have hsplit2 : '.' :: '_' :: (h.data ++ ':' :: (p.data ++ '{' :: body.data)) =
          ('.' :: '_' :: h.data ++ ':' :: p.data.take 3) ++
            (p.data.drop 3 ++ '{' :: body.data) := by
        conv_lhs => rw [← List.take_append_drop 3 p.data]
        simp only [List.cons_append, List.append_assoc]
      rw [hsplit2]
      rw [show 11 + p.data.length - 14 = (p.data.drop 3).length from by
        rw [List.length_drop]; omega]
      rw [show (14 : Nat) = ('.' :: '_' :: h.data ++ ':' :: p.data.take 3).length from by
        simp only [List.length_cons, List.length_append, List.length_take]
        omega]
      rw [List.drop_left, List.take_left]
  unfold getStyleBucketName
  rw [h0, if_neg (by decide), h10, if_pos rfl, hidx, hslice]

/-- C5: the bucket classification branches exactly as specified — at-rule
bucket for a leading `@`; for a `:` pseudo marker immediately after the
9-character class-name token, the bucket given by the fixed pseudo lookup
table applied to the pseudo-name text (its `slice(14, indexOf('{'))`
portion), with the catch-all bucket as default when the text is not in the
table; and the catch-all bucket when the pseudo suffix is absent — in
particular each LVFHA pseudo name maps to its own bucket. -/
theorem classifier_branches :
    (∀ rest : String, getStyleBucketName ("@" ++ rest) = "m") ∧
      (∀ h p body : String, h.data.length = 8 → '{' ∉ h.data → '{' ∉ p.data →
        getStyleBucketName ("._" ++ h ++ ":" ++ p ++ "\x7b" ++ body) =
          (pseudosMap (String.mk (p.data.drop 3))).getD "") ∧
      (∀ h body : String, h.data.length = 8 →
        getStyleBucketName ("._" ++ h ++ "\x7b" ++ body) = "") ∧
      (∀ h body : String, h.data.length = 8 → '{' ∉ h.data →
        getStyleBucketName ("._" ++ h ++ ":" ++ "link" ++ "\x7b" ++ body) = "l" ∧
        getStyleBucketName ("._" ++ h ++ ":" ++ "visited" ++ "\x7b" ++ body) = "v" ∧
        getStyleBucketName ("._" ++ h ++ ":" ++ "focus-within" ++ "\x7b" ++ body) = "w" ∧
        getStyleBucketName ("._" ++ h ++ ":" ++ "focus" ++ "\x7b" ++ body) = "f" ∧
        getStyleBucketName ("._" ++ h ++ ":" ++ "focus-visible" ++ "\x7b" ++ body) = "i" ∧
        getStyleBucketName ("._" ++ h ++ ":" ++ "hover" ++ "\x7b" ++ body) = "h" ∧
        getStyleBucketName ("._" ++ h ++ ":" ++ "active" ++ "\x7b" ++ body) = "a") := by
  refine ⟨getStyleBucketName_atRule, getStyleBucketName_pseudo,
    getStyleBucketName_noPseudo, ?_⟩
  intro h body hh hhb
  refine ⟨?_, ?_, ?_, ?_, ?_, ?_, ?_⟩ <;>
    rw [getStyleBucketName_pseudo h _ body hh hhb (by decide)] <;> rfl

/-- Witness for C5 at concrete sheets: one sheet per branch. -/
theorem classifier_branches_witness :
    getStyleBucketName ("@" ++ "media screen\x7b\x7d") = "m" ∧
      getStyleBucketName ("._" ++ "a1234567" ++ ":" ++ "hover" ++ "\x7b" ++ "color:red\x7d") = "h" ∧
      getStyleBucketName ("._" ++ "a1234567" ++ "\x7b" ++ "color:red\x7d") = "" ∧
      getStyleBucketName ("._" ++ "a1234567" ++ ":" ++ "first-child" ++ "\x7b" ++ "color:red\x7d") =
        (pseudosMap (String.mk ("first-child".data.drop 3))).getD "" :=
  ⟨classifier_branches.1 "media screen\x7b\x7d",
    (classifier_branches.2.2.2 "a1234567" "color:red\x7d" (by decide) (by decide)).2.2.2.2.2.1,
    classifier_branches.2.2.1 "a1234567" "color:red\x7d" (by decide),
    classifier_branches.2.1 "a1234567" "first-child" "color:red\x7d"
      (by decide) (by decide) (by decide)⟩

/-- The scan loop splits the input into prefixed rules and orphan
declarations, each in input order. -/
theorem groupScan_eq (u : String) (root : List CssNode) :
    ∀ (n0 : List CssNode) (d0 : List (String × String)),
      root.foldl (groupScanStep u) (n0, d0) =
        (n0 ++ (topRules root).map (prefixRule u), d0 ++ topDecls root) := by
  induction root with
  | nil => intro n0 d0; simp [topRules, topDecls]
  | cons n rest ih =>
      intro n0 d0
      cases n with
      | decl p v =>
          rw [List.foldl_cons]
          show rest.foldl (groupScanStep u) (n0, d0 ++ [(p, v)]) = _
          rw [ih]
          simp [topRules, topDecls, List.filterMap_cons]
      | rule sel bdy =>
          rw [List.foldl_cons]
          show rest.foldl (groupScanStep u)
            (n0 ++ [.rule ("." ++ u ++ " " ++ sel) bdy], d0) = _
          rw [ih]
          simp [topRules, topDecls, List.filterMap_cons, prefixRule]
      | comment t =>
          rw [List.foldl_cons]
          show rest.foldl (groupScanStep u) (n0, d0) = _
          rw [ih]
          simp [topRules, topDecls, List.filterMap_cons]
      | atrule nm params =>
          rw [List.foldl_cons]
          show rest.foldl (groupScanStep u) (n0, d0) = _
          rw [ih]
          simp [topRules, topDecls, List.filterMap_cons]

/-- Closed form of `groupGlobalRules`: one optional wrapper rule holding the
orphan declarations in order, followed by the prefixed rules in order; the
emitted class name is `.{hash(input)}`. -/
theorem groupGlobalRules_eq (hash : String → String) (inputCss : String)
    (root : List CssNode) :
    groupGlobalRules hash inputCss root =
      { nodes :=
          (if topDecls root = [] then [] else
            [CssNode.rule ("." ++ hash inputCss) (topDecls root)]) ++
            (topRules root).map (prefixRule (hash inputCss)),
        classNames := ["." ++ hash inputCss] } := by
  simp only [groupGlobalRules]
  rw [groupScan_eq]
  by_cases hd : topDecls root = []
  · simp [hd]
  · simp only [List.nil_append, List.isEmpty_iff, hd, if_neg, if_false]
    simp [hd]

/-- C3 as stated fails: on a rule followed by a bare declaration, the global
grouping pass emits the declaration (inside the synthetic wrapper rule,
unshifted onto the front) ahead of the rule, so the original relative order
of declarations with respect to rules is not preserved. -/
theorem global_grouping_reorders :
    declSequence ((groupGlobalRules (fun _ => "g1234567") "css1"
        [.rule ".x" [("color", "blue")], .decl "color" "red"]).nodes) ≠
      declSequence ([CssNode.rule ".x" [("color", "blue")],
        CssNode.decl "color" "red"].filter (fun n => !isComment n)) := by
  decide

/-- C3 amended: the global grouping branch removes comments, keeps the
relative order of rules with respect to each other and of declarations with
respect to each other, but collects all top-level bare declarations into one
synthetic wrapper rule placed before all rules — so a declaration occurring
after a rule moves ahead of it (and top-level at-rules are dropped). -/
theorem global_grouping_order (hash : String → String) (inputCss : String)
    (root : List CssNode) :
    (groupGlobalRules hash inputCss root).nodes =
      (if topDecls root = [] then [] else
        [CssNode.rule ("." ++ hash inputCss) (topDecls root)]) ++
        (topRules root).map (prefixRule (hash inputCss)) ∧
      ∀ n ∈ (groupGlobalRules hash inputCss root).nodes, isComment n = false := by
  have heq := groupGlobalRules_eq hash inputCss root
  constructor
  · rw [heq]
  · intro n hn
    rw [heq] at hn
    simp only [List.mem_append] at hn
    rcases hn with hn | hn
    · by_cases hd : topDecls root = []
      · rw [if_pos hd] at hn; simp at hn
      · rw [if_neg hd] at hn
        rw [List.mem_singleton.mp hn]
        rfl
    · obtain ⟨r, hr, rfl⟩ := List.mem_map.mp hn
      unfold topRules at hr
      obtain ⟨n0, _, hsome⟩ := List.mem_filterMap.mp hr
      cases n0 <;> simp at hsome
      rw [← hsome]
      rfl

/-- Witness for C3's amended statement: the wrapper rule emitted on a
concrete input is not a comment. -/
theorem global_grouping_order_witness :
    isComment (CssNode.rule ("." ++ (fun _ => "g1234567") "css1")
      [("color", "red")]) = false :=
  (global_grouping_order (fun _ => "g1234567") "css1"
      [CssNode.decl "color" "red", CssNode.comment "note"]).2
    (CssNode.rule ("." ++ (fun _ => "g1234567") "css1") [("color", "red")])
    (by decide)

/-- C4: the global branch hashes the whole input, emits `.{hash}` as the
class name, wraps all top-level bare declarations (when any exist) into
exactly one synthetic rule with selector `.{hash}`, placed first, and
rewrites every other top-level rule's selector to be prefixed with
`.{hash} `; in particular, on the Scenario C input
`"color:red;.x{color:blue}"` (parsed as one bare declaration followed by
rule `.x`) it yields the synthetic wrapper plus one rewritten `.{hash} .x`
rule, in that order. -/
theorem global_grouping_wraps (hash : String → String) (inputCss : String)
    (root : List CssNode) :
    (groupGlobalRules hash inputCss root).classNames = ["." ++ hash inputCss] ∧
      (topDecls root ≠ [] →
        (groupGlobalRules hash inputCss root).nodes =
          CssNode.rule ("." ++ hash inputCss) (topDecls root) ::
            (topRules root).map (prefixRule (hash inputCss))) ∧
      (groupGlobalRules hash "color:red;.x\x7bcolor:blue\x7d"
          [.decl "color" "red", .rule ".x" [("color", "blue")]]).nodes =
        [CssNode.rule ("." ++ hash "color:red;.x\x7bcolor:blue\x7d") [("color", "red")],
          CssNode.rule ("." ++ hash "color:red;.x\x7bcolor:blue\x7d" ++ " " ++ ".x")
            [("color", "blue")]] := by
  refine ⟨?_, ?_, ?_⟩
  · rw [groupGlobalRules_eq]
  · intro hd
    rw [groupGlobalRules_eq]
    simp [hd]
  · rw [groupGlobalRules_eq]
    simp [topDecls, topRules, prefixRule, List.filterMap_cons]

/-- Witness for C4 at a concrete hash function and the Scenario C input. -/
theorem global_grouping_wraps_witness :
    topDecls [CssNode.decl "color" "red",
        CssNode.rule ".x" [("color", "blue")]] ≠ [] ∧
      (groupGlobalRules (fun _ => "g1234567") "color:red;.x\x7bcolor:blue\x7d"
          [.decl "color" "red", .rule ".x" [("color", "blue")]]).nodes =
        CssNode.rule ("." ++ (fun _ => "g1234567") "color:red;.x\x7bcolor:blue\x7d")
            (topDecls [CssNode.decl "color" "red",
              CssNode.rule ".x" [("color", "blue")]]) ::
          (topRules [CssNode.decl "color" "red",
              CssNode.rule ".x" [("color", "blue")]]).map
            (prefixRule ((fun _ => "g1234567") "color:red;.x\x7bcolor:blue\x7d")) :=
  ⟨by decide,
    (global_grouping_wraps (fun _ => "g1234567") "color:red;.x\x7bcolor:blue\x7d"
        [.decl "color" "red", .rule ".x" [("color", "blue")]]).2.1 (by decide)⟩

/-- C8: every `transformCss` call either returns a complete result built
from the pipeline's collected sheets and class names, or raises the single
error kind carrying the original input and the underlying diagnostic; a
failing pipeline yields no partial output. -/
theorem transform_error_contract
    (pipeline : TransformOpts → Bool → String →
      Except String (List String × List String))
    (opts : TransformOpts) (isGlobal : Bool) (css : String) :
    (∃ sheets classNames,
        pipeline opts isGlobal css = .ok (sheets, classNames) ∧
          transformCss pipeline opts isGlobal css =
            .ok { sheets := sheets, classNames := unique classNames }) ∨
      (∃ d, pipeline opts isGlobal css = .error d ∧
        transformCss pipeline opts isGlobal css =
          .error { input := css, diagnostic := d }) := by
  unfold transformCss
  cases hp : pipeline opts isGlobal css with
  | ok pr => exact Or.inl ⟨pr.1, pr.2, rfl, rfl⟩
  | error d => exact Or.inr ⟨d, rfl, rfl⟩

/-- C9: `transformCss` is deterministic — two calls with equal options,
equal branch flag and equal input produce equal results (the embedding is a
pure function of its inputs; the content hash is a fixed seed-free
function). -/
theorem transform_deterministic
    (pipeline : TransformOpts → Bool → String →
      Except String (List String × List String))
    (opts1 opts2 : TransformOpts) (g1 g2 : Bool) (css1 css2 : String)
    (hopts : opts1 = opts2) (hg : g1 = g2) (hcss : css1 = css2) :
    transformCss pipeline opts1 g1 css1 = transformCss pipeline opts2 g2 css2 := by
  rw [hopts, hg, hcss]

/-- Witness for C9 at a concrete pipeline and input. -/
theorem transform_deterministic_witness :
    transformCss (fun _ _ css => .ok ([css], ["._a" ++ css])) {} false "color:red" =
      transformCss (fun _ _ css => .ok ([css], ["._a" ++ css])) {} false "color:red" :=
  transform_deterministic (fun _ _ css => .ok ([css], ["._a" ++ css]))
    {} {} false false "color:red" "color:red" rfl rfl rfl

/-- The deduplicated class-name list has no duplicates. -/
theorem unique_nodup (l : List String) : (unique l).Nodup := by
  unfold unique
  suffices h : ∀ acc : List String, acc.Nodup →
      (l.foldl (fun acc x => if acc.contains x then acc else acc ++ [x]) acc).Nodup by
    exact h [] List.nodup_nil
  induction l with
  | nil => intro acc hacc; exact hacc
  | cons a l ih =>
      intro acc hacc
      rw [List.foldl_cons]
      cases hc : acc.contains a with
      | true => rw [if_pos rfl]; exact ih acc hacc
      | false =>
          rw [if_neg (by simp)]
          refine ih (acc ++ [a]) ?_
          rw [List.nodup_append]
          refine ⟨hacc, List.nodup_singleton a, ?_⟩
          intro x hx hxa
          rw [List.mem_singleton.mp hxa] at hx
          exact absurd hx (by simpa using hc)

/-- C10: the classNames sequence of a successful `transformCss` call
contains no duplicate entries, even when the same class name was collected
more than once during compilation. -/
theorem classNames_nodup
    (pipeline : TransformOpts → Bool → String →
      Except String (List String × List String))
    (opts : TransformOpts) (isGlobal : Bool) (css : String)
    (r : TransformResult)
    (h : transformCss pipeline opts isGlobal css = .ok r) :
    r.classNames.Nodup := by
  unfold transformCss at h
  cases hp : pipeline opts isGlobal css with
  | ok pr =>
      rw [hp] at h
      cases h
      exact unique_nodup pr.2
  | error d => rw [hp] at h; cases h

/-- Witness for C10: a pipeline emitting a duplicated class name still
yields a duplicate-free classNames sequence. -/
theorem classNames_nodup_witness :
    (TransformResult.mk ["._s\x7bcolor:red\x7d"] ["a", "b"]).classNames.Nodup :=
  classNames_nodup (fun _ _ _ => .ok (["._s\x7bcolor:red\x7d"], ["a", "b", "a"]))
    {} false "color:red" (TransformResult.mk ["._s\x7bcolor:red\x7d"] ["a", "b"]) rfl

end CompiledCss
